import Mathlib

/-!
Verification of the double_decker event-bus library (src/lib.rs).

The Rust code keeps, behind an Arc-RwLock, a `BusInner` holding
`senders : HashMap<usize, Sender<T>>` and `next_id : usize`.  This file is a
sequential shallow embedding: the hash map becomes an association list from
ids to the observable state of the stored `Sender` — `true` while the
matching `Receiver` half is still alive, `false` once it is disconnected.
`sender.send(v)` succeeds exactly when the receiver is alive, and on success
enqueues `v` on that subscriber's private queue; `broadcast` therefore
returns, besides the `Vec<usize>` of disconnected ids that the Rust function
returns, the ghost trace of successful deliveries `(id, value)` in the exact
order the code performs the sends.  `T::clone()` is the identity on values
(`T` is a plain `Clone` type, and the spec assumes a total, value-preserving
copy).
-/

namespace DoubleDecker

/-- Embedding of `struct BusInner<T> { senders: HashMap<usize, Sender<T>>, next_id: usize }`.
Each map entry records the id and whether the stored sender's receiver is
still connected; the hash map is an association list whose keys are
(invariantly) pairwise distinct. -/
structure BusInner where
  senders : List (Nat × Bool)
  next_id : Nat
deriving DecidableEq

/-- Key order used by `get_sorted_senders` (`sort_by_key(|(id, _)| **id)`). -/
def keyLE (a b : Nat × Bool) : Prop := a.1 ≤ b.1

instance keyLE.decRel : DecidableRel keyLE := fun a b => Nat.decLe a.1 b.1

instance keyLE.isTotal : IsTotal (Nat × Bool) keyLE := ⟨fun a b => Nat.le_total a.1 b.1⟩

instance keyLE.isTrans : IsTrans (Nat × Bool) keyLE := ⟨fun _ _ _ => Nat.le_trans⟩

/-- Models `HashMap::insert`: any stale binding of `k` is replaced. -/
def hmInsert (m : List (Nat × Bool)) (k : Nat) (v : Bool) : List (Nat × Bool) :=
  (k, v) :: m.filter (fun p => p.1 != k)

/-- Models `HashMap::remove`. -/
def hmRemove (m : List (Nat × Bool)) (k : Nat) : List (Nat × Bool) :=
  m.filter (fun p => p.1 != k)

/-- Models `HashMap::get`: the observable lookup of one key. -/
def hmLookup (m : List (Nat × Bool)) (k : Nat) : Option Bool :=
  (m.find? (fun p => p.1 == k)).map Prod.snd

/-- Embedding of `BusInner::get_sorted_senders`: collect the map's entries
and sort them by id (`sort_by_key` is a stable sort; `insertionSort` too). -/
def BusInner.get_sorted_senders (b : BusInner) : List (Nat × Bool) :=
  b.senders.insertionSort keyLE

/-- Embedding of `BusInner::add_rx`: create an unbounded channel pair, store
the sender under `next_id`, increment `next_id`, hand back the receiver.
The fresh receiver is identified here by its id; the freshly created channel
is connected, so the stored sender state is `true`. -/
def BusInner.add_rx (b : BusInner) : BusInner × Nat :=
  (⟨hmInsert b.senders b.next_id true, b.next_id + 1⟩, b.next_id)

/-- Models one `send` inside the broadcast loop: on success `(id, event)` is
appended to the delivery trace, on `SendError` the id is pushed onto the
`disconnected` vector. -/
def broadcastStep {T : Type} (event : T) (acc : List (Nat × T) × List Nat)
    (p : Nat × Bool) : List (Nat × T) × List Nat :=
  if p.2 then (acc.1 ++ [(p.1, event)], acc.2) else (acc.1, acc.2 ++ [p.1])

/-- Embedding of `BusInner::broadcast`: `split_last` the id-sorted senders;
every sender but the last receives `event.clone()` and the last receives
`event` itself (clone is the identity on values, so both deliver `event`).
Returns the ghost delivery trace together with the returned `Vec<usize>` of
ids whose send failed. -/
def BusInner.broadcast {T : Type} (b : BusInner) (event : T) :
    List (Nat × T) × List Nat :=
  match b.get_sorted_senders.getLast? with
  | none => ([], [])
  | some last =>
      broadcastStep event
        (b.get_sorted_senders.dropLast.foldl (broadcastStep event) ([], [])) last

/-- Embedding of `BusInner::remove_senders`: remove every id in `ids`. -/
def BusInner.remove_senders (b : BusInner) (ids : List Nat) : BusInner :=
  ⟨ids.foldl (fun s id => hmRemove s id) b.senders, b.next_id⟩

/-- Embedding of `Bus::new` and `Default for BusInner`: empty map, `next_id = 0`. -/
def Bus.new : BusInner := ⟨[], 0⟩

/-- Embedding of `Bus::broadcast`: broadcast under the read lock; only when
some sends failed, retake the write lock and remove those senders.  The Rust
function returns `()`; here the new registry state is returned together with
the ghost delivery trace. -/
def Bus.broadcast {T : Type} (b : BusInner) (event : T) :
    BusInner × List (Nat × T) :=
  let r := b.broadcast event
  if r.2.length > 0 then (b.remove_senders r.2, r.1) else (b, r.1)

/-- Keys present in the registry map. -/
def BusInner.keys (b : BusInner) : List Nat := b.senders.map Prod.fst

/-- Representation invariant of the `HashMap`: keys are pairwise distinct. -/
def WF (b : BusInner) : Prop := b.keys.Nodup

/-- Spec invariant: `next_id` strictly exceeds every key present. -/
def Inv (b : BusInner) : Prop := ∀ p ∈ b.senders, p.1 < b.next_id

instance : DecidablePred WF := fun b => List.nodupDecidable b.keys

instance : DecidablePred Inv := fun b =>
  List.decidableBAll (fun p : Nat × Bool => p.1 < b.next_id) b.senders

/-- State of the worker thread bound to a `Subscription`'s one-shot
`terminate` channel. -/
inductive WorkerState
  | running
  | stopped
deriving DecidableEq

/-- Embedding of `pub struct Subscription { terminate: Sender<()> }`: the
observable of the `terminate` sender handle is the state of the worker that
holds the matching receiver. -/
structure Subscription where
  worker : WorkerState
deriving DecidableEq

/-- Models one `terminate.send(())` on the zero-capacity channel: while the
worker runs, the rendezvous completes at the worker's next `try_recv` and the
worker then returns; once the worker has exited, its receiver is gone and the
send returns `Err(SendError(()))` at once.  The `Bool` reports success. -/
def terminateSend : WorkerState → WorkerState × Bool
  | .running => (.stopped, true)
  | .stopped => (.stopped, false)

/-- Embedding of `Subscription::dispose`: `let _ = self.terminate.send(());`
— the send's outcome is discarded, so a failed send never panics or
propagates. -/
def Subscription.dispose (s : Subscription) : Subscription :=
  ⟨(terminateSend s.worker).1⟩

/-- Embedding of `impl Drop for Subscription`: drop calls `dispose`. -/
def Subscription.drop (s : Subscription) : Subscription := s.dispose

/-- Embedding of `derive(Clone)` on `Subscription`: cloning copies the
`Sender<()>` handle, so the clone refers to the same channel and the same
worker. -/
def Subscription.clone (s : Subscription) : Subscription := s

/-- Embedding of the drain phase of the worker loop spawned by
`subscribe_on_thread`: `for event in receiver.try_iter() { callback(event) }`.
Each step of crossbeam's `try_iter` is one `try_recv`: it yields another
event exactly when the queue is observed non-empty at that moment, and the
`for` loop ends only when a `try_recv` observes the queue empty.  The
schedule `avail n` says whether, once the worker has consumed `n` events in
this drain, the next `try_recv` finds a message instantly available — a
producer that broadcasts continuously, outpacing the callback, keeps it
`true` at every step.  `fuel` bounds how many drain steps are observed:
`some consumed` means a `try_recv` observed the queue empty after `consumed`
events, ending the drain so that control reaches the single
`terminate_rx.try_recv()` termination check that follows it; `none` means
the drain is still consuming after `fuel` steps and the termination check
has not been reached. -/
def tryIterDrain (avail : Nat → Bool) : Nat → Nat → Option Nat
  | 0, _ => none
  | fuel + 1, consumed =>
      if avail consumed then tryIterDrain avail fuel (consumed + 1)
      else some consumed

/-- Embedding of the blocking `subscribe`:
`for event in self.iter() { callback(event) }`.  The list `events` is the
complete stream the channel ever carries; `iter()` blocks until the next
event and ends exactly when every sender is gone and the buffer is drained,
whereupon `subscribe` returns.  The callback is embedded as a state-passing
function (`FnMut` closure state). -/
def subscribe {σ T : Type} (cb : σ → T → σ) (s : σ) : List T → σ
  | [] => s
  | e :: rest => subscribe cb (cb s e) rest

/-! ## Basic lemmas about the embedded operations -/

theorem foldl_broadcastStep {T : Type} (event : T) :
    ∀ (l : List (Nat × Bool)) (acc : List (Nat × T) × List Nat),
      l.foldl (broadcastStep event) acc =
        (acc.1 ++ (l.filter (fun p => p.2)).map (fun p => (p.1, event)),
         acc.2 ++ (l.filter (fun p => !p.2)).map Prod.fst)
  | [], acc => by simp
  | p :: l, acc => by
      cases hp : p.2 <;>
        simp [List.foldl_cons, broadcastStep, hp, foldl_broadcastStep event l,
          List.filter_cons]

theorem dropLast_concat_of_getLast? {α : Type} {l : List α} {a : α}
    (h : l.getLast? = some a) : l.dropLast ++ [a] = l := by
  have hne : l ≠ [] := by
    intro hnil
    rw [hnil] at h
    simp at h
  have hLast : l.getLast hne = a := by
    have := List.getLast?_eq_getLast l hne
    rw [this] at h
    exact (Option.some.injEq _ _).mp h
  rw [← hLast]
  exact List.dropLast_concat_getLast hne

theorem broadcast_eq {T : Type} (b : BusInner) (event : T) :
    b.broadcast event =
      ((b.get_sorted_senders.filter (fun p => p.2)).map (fun p => (p.1, event)),
       (b.get_sorted_senders.filter (fun p => !p.2)).map Prod.fst) := by
  unfold BusInner.broadcast
  cases h : b.get_sorted_senders.getLast? with
  | none =>
      rw [List.getLast?_eq_none_iff.mp h]
      simp
  | some last =>
      show broadcastStep event
          (b.get_sorted_senders.dropLast.foldl (broadcastStep event) ([], [])) last = _
      have hsplit := dropLast_concat_of_getLast? h
      have hstep : broadcastStep event
            (b.get_sorted_senders.dropLast.foldl (broadcastStep event) ([], [])) last
          = (b.get_sorted_senders.dropLast ++ [last]).foldl (broadcastStep event) ([], []) := by
        rw [List.foldl_append]
        rfl
      rw [hstep, hsplit, foldl_broadcastStep]
      simp

theorem sorted_senders_perm (b : BusInner) :
    b.get_sorted_senders.Perm b.senders :=
  List.perm_insertionSort keyLE b.senders

theorem sorted_senders_sorted (b : BusInner) :
    List.Sorted keyLE b.get_sorted_senders :=
  List.sorted_insertionSort keyLE b.senders

theorem remove_foldl_eq_filter :
    ∀ (ids : List Nat) (s : List (Nat × Bool)),
      ids.foldl (fun s id => hmRemove s id) s =
        s.filter (fun p => !ids.contains p.1)
  | [], s => by simp
  | id :: ids, s => by
      rw [List.foldl_cons, remove_foldl_eq_filter ids]
      unfold hmRemove
      rw [List.filter_filter]
      apply List.filter_congr
      intro p _
      by_cases hpi : p.1 = id <;> simp [hpi, Bool.and_comm]

theorem remove_senders_eq (b : BusInner) (ids : List Nat) :
    b.remove_senders ids =
      ⟨b.senders.filter (fun p => !ids.contains p.1), b.next_id⟩ := by
  unfold BusInner.remove_senders
  rw [remove_foldl_eq_filter]

theorem find?_filter_ne (k j : Nat) (h : k ≠ j) :
    ∀ m : List (Nat × Bool),
      (m.filter (fun p => p.1 != j)).find? (fun p => p.1 == k)
        = m.find? (fun p => p.1 == k)
  | [] => rfl
  | p :: m => by
      by_cases hj : p.1 = j
      · have hpk : ¬((p.1 == k) = true) := by
          simp only [hj, beq_iff_eq]
          exact Ne.symm h
        have hstep : List.find? (fun q : Nat × Bool => q.1 == k) (p :: m)
            = List.find? (fun q : Nat × Bool => q.1 == k) m :=
          List.find?_cons_of_neg m hpk
        rw [List.filter_cons, if_neg (by simp [hj]), hstep]
        exact find?_filter_ne k j h m
      · rw [List.filter_cons, if_pos (by simp [hj])]
        by_cases hk : p.1 = k
        · have h1 : List.find? (fun q : Nat × Bool => q.1 == k)
              (p :: m.filter (fun q => q.1 != j)) = some p :=
            List.find?_cons_of_pos _ (by simp [hk])
          have h2 : List.find? (fun q : Nat × Bool => q.1 == k) (p :: m) = some p :=
            List.find?_cons_of_pos _ (by simp [hk])
          rw [h1, h2]
        · have h1 : List.find? (fun q : Nat × Bool => q.1 == k)
              (p :: m.filter (fun q => q.1 != j))
              = List.find? (fun q : Nat × Bool => q.1 == k)
                  (m.filter (fun q => q.1 != j)) :=
            List.find?_cons_of_neg _ (by simp [hk])
          have h2 : List.find? (fun q : Nat × Bool => q.1 == k) (p :: m)
              = List.find? (fun q : Nat × Bool => q.1 == k) m :=
            List.find?_cons_of_neg _ (by simp [hk])
          rw [h1, h2]
          exact find?_filter_ne k j h m

theorem hmLookup_mem {m : List (Nat × Bool)} {k : Nat} {v : Bool}
    (h : hmLookup m k = some v) : (k, v) ∈ m := by
  unfold hmLookup at h
  cases hf : m.find? (fun p => p.1 == k) with
  | none => rw [hf] at h; simp at h
  | some q =>
      rw [hf] at h
      have hall := List.find?_some hf
      have hmem := List.mem_of_find?_eq_some hf
      have hk : q.1 = k := by simpa using hall
      have hv : q.2 = v := by simpa using h
      have : q = (k, v) := Prod.ext hk hv
      rwa [this] at hmem

theorem mem_iff_hmLookup :
    ∀ (m : List (Nat × Bool)), (m.map Prod.fst).Nodup →
      ∀ (k : Nat) (v : Bool), ((k, v) ∈ m ↔ hmLookup m k = some v)
  | [], _, k, v => by simp [hmLookup]
  | p :: m, hm, k, v => by
      rw [List.map_cons] at hm
      obtain ⟨hhead, htail⟩ := List.nodup_cons.mp hm
      by_cases hk : p.1 = k
      · have hlook : hmLookup (p :: m) k = some p.2 := by
          simp [hmLookup, List.find?_cons, hk]
        rw [hlook]
        constructor
        · intro hmem
          rcases List.mem_cons.mp hmem with heq | hmem2
          · rw [← heq]
          · exfalso
            apply hhead
            rw [hk]
            exact List.mem_map.mpr ⟨(k, v), hmem2, rfl⟩
        · intro hv
          have : v = p.2 := by simpa using hv.symm
          rw [this, ← hk]
          exact List.mem_cons_self p m
      · have hlook : hmLookup (p :: m) k = hmLookup m k := by
          simp [hmLookup, List.find?_cons, hk]
        rw [hlook, ← mem_iff_hmLookup m htail k v]
        constructor
        · intro hmem
          rcases List.mem_cons.mp hmem with heq | hmem2
          · exact absurd (congrArg Prod.fst heq.symm) hk
          · exact hmem2
        · intro hmem
          exact List.mem_cons_of_mem p hmem

theorem sorted_keys_nodup (b : BusInner) (hwf : WF b) :
    (b.get_sorted_senders.map Prod.fst).Nodup := by
  have hperm : (b.get_sorted_senders.map Prod.fst).Perm (b.senders.map Prod.fst) :=
    (sorted_senders_perm b).map Prod.fst
  exact hperm.nodup_iff.mpr hwf

theorem connected_mem_filter {b : BusInner} {id : Nat}
    (h : hmLookup b.senders id = some true) :
    (id, true) ∈ b.get_sorted_senders.filter (fun p => p.2) := by
  have hmem : (id, true) ∈ b.senders := hmLookup_mem h
  have hmemS : (id, true) ∈ b.get_sorted_senders :=
    (sorted_senders_perm b).mem_iff.mpr hmem
  exact List.mem_filter.mpr ⟨hmemS, rfl⟩

theorem disconnected_mem_filter {b : BusInner} {id : Nat}
    (h : hmLookup b.senders id = some false) :
    (id, false) ∈ b.get_sorted_senders.filter (fun p => !p.2) := by
  have hmem : (id, false) ∈ b.senders := hmLookup_mem h
  have hmemS : (id, false) ∈ b.get_sorted_senders :=
    (sorted_senders_perm b).mem_iff.mpr hmem
  exact List.mem_filter.mpr ⟨hmemS, rfl⟩

theorem filter_keys_nodup (b : BusInner) (hwf : WF b) (q : Nat × Bool → Bool) :
    ((b.get_sorted_senders.filter q).map Prod.fst).Nodup :=
  ((List.filter_sublist _).map Prod.fst).nodup (sorted_keys_nodup b hwf)

theorem bus_broadcast_next_id {T : Type} (b : BusInner) (event : T) :
    (Bus.broadcast b event).1.next_id = b.next_id := by
  unfold Bus.broadcast
  by_cases hd : (b.broadcast event).2.length > 0
  · simp only [if_pos hd]
    rw [remove_senders_eq]
  · simp only [if_neg hd]

theorem bus_broadcast_senders {T : Type} (b : BusInner) (event : T) :
    (Bus.broadcast b event).1.senders =
      b.senders.filter (fun p => !(b.broadcast event).2.contains p.1) := by
  unfold Bus.broadcast
  by_cases hd : (b.broadcast event).2.length > 0
  · simp only [if_pos hd]
    rw [remove_senders_eq]
  · simp only [if_neg hd]
    have hnil : (b.broadcast event).2 = [] := by
      cases hl : (b.broadcast event).2 with
      | nil => rfl
      | cons x xs => rw [hl] at hd; simp at hd
    rw [hnil]
    simp

/-! ## Claim theorems -/

/-- C3: after `Bus::broadcast` the registry mapping equals the prior mapping
with exactly the ids whose send failed removed and `next_id` unchanged; when
no send failed (the empty registry included) the state is left entirely
unchanged, and every id observed disconnected during the broadcast is absent
from the registry afterwards. -/
theorem bus_broadcast_frame {T : Type} (b : BusInner) (event : T) :
    (Bus.broadcast b event).1.next_id = b.next_id
    ∧ (Bus.broadcast b event).1.senders =
        b.senders.filter (fun p => !(b.broadcast event).2.contains p.1)
    ∧ ((b.broadcast event).2 = [] → (Bus.broadcast b event).1 = b)
    ∧ (∀ id ∈ (b.broadcast event).2,
        hmLookup (Bus.broadcast b event).1.senders id = none) := by
  refine ⟨bus_broadcast_next_id b event, bus_broadcast_senders b event, ?_, ?_⟩
  · intro hnil
    simp [Bus.broadcast, hnil]
  · intro id hid
    rw [bus_broadcast_senders]
    have hfind : (b.senders.filter fun p => !(b.broadcast event).2.contains p.1).find?
        (fun p => p.1 == id) = none := by
      apply List.find?_eq_none.mpr
      intro p hp
      have hnotin : p.1 ∉ (b.broadcast event).2 := by
        simpa using (List.mem_filter.mp hp).2
      intro hbeq
      have hpid : p.1 = id := by simpa using hbeq
      exact hnotin (hpid ▸ hid)
    unfold hmLookup
    rw [hfind]
    rfl

/-- C4: `add_rx` allocates a fresh connected queue pair, stores its outbound
half under the old `next_id`, increments `next_id` by one, leaves every
pre-existing entry unchanged, and returns the id together with the (freshly
created, id-identified) inbound half. -/
theorem add_rx_registers_fresh_receiver (b : BusInner) (h : Inv b) :
    (b.add_rx).2 = b.next_id
    ∧ (b.add_rx).1.next_id = b.next_id + 1
    ∧ hmLookup (b.add_rx).1.senders b.next_id = some true
    ∧ (∀ k : Nat, k ≠ b.next_id →
        hmLookup (b.add_rx).1.senders k = hmLookup b.senders k)
    ∧ (∀ p ∈ b.senders, p ∈ (b.add_rx).1.senders) := by
  refine ⟨rfl, rfl, ?_, ?_, ?_⟩
  · unfold BusInner.add_rx hmInsert hmLookup
    rw [List.find?_cons_of_pos _ (by simp)]
    rfl
  · intro k hk
    unfold BusInner.add_rx hmInsert hmLookup
    have h1 : List.find? (fun q : Nat × Bool => q.1 == k)
        ((b.next_id, true) :: b.senders.filter (fun p => p.1 != b.next_id))
        = List.find? (fun q : Nat × Bool => q.1 == k)
            (b.senders.filter (fun p => p.1 != b.next_id)) :=
      List.find?_cons_of_neg _ (by simp [Ne.symm hk])
    rw [h1, find?_filter_ne k b.next_id hk]
  · intro p hp
    have hlt := h p hp
    unfold BusInner.add_rx hmInsert
    exact List.mem_cons_of_mem _
      (List.mem_filter.mpr ⟨hp, by simpa using Nat.ne_of_lt hlt⟩)

/-- C5: the invariant that `next_id` strictly exceeds every key present
holds initially and is preserved by `add_rx`, `remove_senders` and
`Bus::broadcast`; the id handed out by `add_rx` differs from every key
present, consecutive `add_rx` calls hand out consecutive ids, and removal
never lowers `next_id` — so ids are monotone and never reused. -/
theorem next_id_exceeds_all_keys {T : Type} (b : BusInner) (ids : List Nat)
    (event : T) (h : Inv b) :
    Inv Bus.new
    ∧ Inv (b.add_rx).1
    ∧ Inv (b.remove_senders ids)
    ∧ Inv (Bus.broadcast b event).1
    ∧ (∀ p ∈ b.senders, p.1 ≠ (b.add_rx).2)
    ∧ ((b.add_rx).1.add_rx).2 = (b.add_rx).2 + 1
    ∧ (b.remove_senders ids).next_id = b.next_id := by
  refine ⟨?_, ?_, ?_, ?_, ?_, rfl, by rw [remove_senders_eq]⟩
  · intro p hp
    simp [Bus.new] at hp
  · intro p hp
    unfold BusInner.add_rx hmInsert at hp
    rcases List.mem_cons.mp hp with heq | hmem
    · rw [heq]
      exact Nat.lt_succ_self _
    · have := h p (List.mem_filter.mp hmem).1
      exact Nat.lt_succ_of_lt this
  · rw [remove_senders_eq]
    intro p hp
    exact h p (List.mem_filter.mp hp).1
  · intro p hp
    rw [bus_broadcast_senders] at hp
    rw [bus_broadcast_next_id]
    exact h p (List.mem_filter.mp hp).1
  · intro p hp
    exact Nat.ne_of_lt (h p hp)

/-- C6: `remove_senders` deletes exactly the entries whose keys appear in
`ids` and keeps `next_id`; removing ids absent from the registry is a no-op
leaving the state unchanged, and removing the same ids twice equals removing
them once. -/
theorem remove_senders_deletes_exactly (b : BusInner) (ids : List Nat) :
    (b.remove_senders ids).senders = b.senders.filter (fun p => !ids.contains p.1)
    ∧ (b.remove_senders ids).next_id = b.next_id
    ∧ ((∀ id ∈ ids, hmLookup b.senders id = none) → b.remove_senders ids = b)
    ∧ (b.remove_senders ids).remove_senders ids = b.remove_senders ids := by
  refine ⟨by rw [remove_senders_eq], by rw [remove_senders_eq], ?_, ?_⟩
  · intro hnone
    rw [remove_senders_eq]
    have hfil : b.senders.filter (fun p => !ids.contains p.1) = b.senders := by
      apply List.filter_eq_self.mpr
      intro p hp
      have hpn : p.1 ∉ ids := by
        intro hin
        have hlk := hnone p.1 hin
        unfold hmLookup at hlk
        have hfind : b.senders.find? (fun q => q.1 == p.1) = none := by
          cases hf : b.senders.find? (fun q => q.1 == p.1) with
          | none => rfl
          | some q => rw [hf] at hlk; simp at hlk
        have := List.find?_eq_none.mp hfind p hp
        simp at this
      simpa using hpn
    rw [hfil]
  · rw [remove_senders_eq (b.remove_senders ids) ids, remove_senders_eq b ids]
    dsimp only
    congr 1
    rw [List.filter_filter]
    apply List.filter_congr
    intro p _
    exact Bool.and_self _

theorem count_eq_one_of_mem_nodup {α : Type} [BEq α] [LawfulBEq α] {a : α} :
    ∀ {l : List α}, l.Nodup → a ∈ l → l.count a = 1
  | [], _, h => absurd h (List.not_mem_nil a)
  | b :: l, hn, h => by
      obtain ⟨hb, hl⟩ := List.nodup_cons.mp hn
      rw [List.count_cons]
      rcases List.mem_cons.mp h with heq | hmem
      · subst heq
        simp [List.count_eq_zero.mpr hb]
      · have hne : (b == a) = false := beq_false_of_ne (fun hba => hb (hba ▸ hmem))
        rw [count_eq_one_of_mem_nodup hl hmem, hne]
        simp

/-- C1: one `broadcast` delivers exactly one copy equal to `event` to every
still-connected subscriber, visiting subscribers in strictly ascending
SubscriberId (registration) order; every delivered value — the final
subscriber's original included — equals `event`, and deliveries go only to
still-connected subscribers. -/
theorem broadcast_delivers_once_in_order {T : Type} [DecidableEq T]
    (b : BusInner) (event : T) (hwf : WF b) :
    (b.broadcast event).1 =
        (b.get_sorted_senders.filter (fun p => p.2)).map (fun p => (p.1, event))
    ∧ ((b.broadcast event).1.map Prod.fst).Pairwise (· < ·)
    ∧ (∀ id : Nat, hmLookup b.senders id = some true →
        ((b.broadcast event).1.count (id, event)) = 1)
    ∧ (∀ q ∈ (b.broadcast event).1,
        q.2 = event ∧ hmLookup b.senders q.1 = some true) := by
  have hb := broadcast_eq b event
  have hfst : (b.broadcast event).1 =
      (b.get_sorted_senders.filter (fun p => p.2)).map (fun p => (p.1, event)) :=
    congrArg Prod.fst hb
  have hkeys : (b.broadcast event).1.map Prod.fst =
      (b.get_sorted_senders.filter (fun p => p.2)).map Prod.fst := by
    rw [hfst, List.map_map]
    rfl
  have hfl : (b.get_sorted_senders.filter (fun p => p.2)).Pairwise keyLE :=
    List.Pairwise.sublist (List.filter_sublist _) (sorted_senders_sorted b)
  have hnod : ((b.get_sorted_senders.filter (fun p => p.2)).map Prod.fst).Nodup :=
    filter_keys_nodup b hwf _
  refine ⟨hfst, ?_, ?_, ?_⟩
  · rw [hkeys]
    have hle : ((b.get_sorted_senders.filter (fun p => p.2)).map Prod.fst).Pairwise
        (· ≤ ·) := List.pairwise_map.mpr hfl
    exact (hle.and hnod).imp (fun hpq => lt_of_le_of_ne hpq.1 hpq.2)
  · intro id hid
    have hmemF : (id, true) ∈ b.get_sorted_senders.filter (fun p => p.2) :=
      connected_mem_filter hid
    have hmemD : (id, event) ∈ (b.broadcast event).1 := by
      rw [hfst]
      exact List.mem_map.mpr ⟨(id, true), hmemF, rfl⟩
    have hnodD : (b.broadcast event).1.Nodup := by
      apply List.Nodup.of_map Prod.fst
      rw [hkeys]
      exact hnod
    exact count_eq_one_of_mem_nodup hnodD hmemD
  · intro q hq
    rw [hfst] at hq
    obtain ⟨p, hpF, hpq⟩ := List.mem_map.mp hq
    obtain ⟨hpS, hpc⟩ := List.mem_filter.mp hpF
    have hpc2 : p.2 = true := by simpa using hpc
    have hpmem : (q.1, true) ∈ b.senders := by
      have : p = (q.1, true) := by
        rw [← hpq, ← hpc2]
      rw [← this]
      exact (sorted_senders_perm b).mem_iff.mp hpS
    constructor
    · rw [← hpq]
    · exact (mem_iff_hmLookup b.senders hwf q.1 true).mp hpmem

/-- C2: when a send fails the id is recorded and delivery still reaches every
other (connected) subscriber; `broadcast` returns exactly the ids whose send
failed — membership in the returned vector coincides with the subscriber's
endpoint being disconnected — and `Bus::broadcast` (returning `()` in Rust)
absorbs these failures instead of surfacing them to its caller. -/
theorem broadcast_absorbs_send_failures {T : Type} (b : BusInner) (event : T)
    (hwf : WF b) :
    (b.broadcast event).2 =
        (b.get_sorted_senders.filter (fun p => !p.2)).map Prod.fst
    ∧ (∀ id : Nat, hmLookup b.senders id = some true →
        (id, event) ∈ (b.broadcast event).1)
    ∧ (∀ id : Nat, id ∈ (b.broadcast event).2 ↔ hmLookup b.senders id = some false) := by
  have hb := broadcast_eq b event
  have hsnd : (b.broadcast event).2 =
      (b.get_sorted_senders.filter (fun p => !p.2)).map Prod.fst :=
    congrArg Prod.snd hb
  refine ⟨hsnd, ?_, ?_⟩
  · intro id hid
    have hmemF : (id, true) ∈ b.get_sorted_senders.filter (fun p => p.2) :=
      connected_mem_filter hid
    rw [congrArg Prod.fst hb]
    exact List.mem_map.mpr ⟨(id, true), hmemF, rfl⟩
  · intro id
    rw [hsnd]
    constructor
    · intro hmem
      obtain ⟨p, hpF, hpq⟩ := List.mem_map.mp hmem
      obtain ⟨hpS, hpc⟩ := List.mem_filter.mp hpF
      have hpc2 : p.2 = false := by simpa using hpc
      have hpmem : (id, false) ∈ b.senders := by
        have hp : p = (id, false) := by
          rw [← hpq, ← hpc2]
        rw [← hp]
        exact (sorted_senders_perm b).mem_iff.mp hpS
      exact (mem_iff_hmLookup b.senders hwf id false).mp hpmem
    · intro hid
      have hmemF : (id, false) ∈ b.get_sorted_senders.filter (fun p => !p.2) :=
        disconnected_mem_filter hid
      exact List.mem_map.mpr ⟨(id, false), hmemF, rfl⟩

theorem subscribe_foldl {σ T : Type} (cb : σ → T → σ) :
    ∀ (events : List T) (s : σ), subscribe cb s events = events.foldl cb s
  | [], _ => rfl
  | e :: rest, s => by
      rw [List.foldl_cons]
      exact subscribe_foldl cb rest (cb s e)

theorem foldl_append_singleton {T : Type} :
    ∀ (l : List T) (acc : List T),
      l.foldl (fun acc e => acc ++ [e]) acc = acc ++ l
  | [], acc => by simp
  | e :: l, acc => by
      rw [List.foldl_cons, foldl_append_singleton l]
      simp

/-- C7: the blocking `subscribe` invokes the callback exactly once per
received event, in queue order — the trace of invocations equals the stream
— and behaves as the serial left fold of the callback over the stream; it
returns exactly when the stream ends, i.e. once the producer side is fully
disconnected and every buffered event has been consumed. -/
theorem subscribe_consumes_entire_stream {T : Type} (events : List T) :
    subscribe (fun acc e => acc ++ [e]) ([] : List T) events = events
    ∧ (∀ (σ2 : Type) (cb : σ2 → T → σ2) (s : σ2),
        subscribe cb s events = events.foldl cb s) := by
  constructor
  · rw [subscribe_foldl, foldl_append_singleton]
    simp
  · intro σ2 cb s
    exact subscribe_foldl cb events s

/-- C8: disposing twice, or once explicitly and once via drop, never panics
or deadlocks: drop is exactly `dispose`, `dispose` is idempotent, it always
leaves the worker stopped, and on an already-exited worker it merely
receives (and discards) the send error. -/
theorem dispose_idempotent_and_safe (s : Subscription) :
    Subscription.drop s = s.dispose
    ∧ s.dispose.dispose = s.dispose
    ∧ s.dispose.worker = WorkerState.stopped
    ∧ (Subscription.mk WorkerState.stopped).dispose = Subscription.mk WorkerState.stopped
    ∧ s.dispose.drop = s.dispose := by
  obtain ⟨w⟩ := s
  cases w <;> exact ⟨rfl, rfl, rfl, rfl, rfl⟩

/-- C9: the code fails the claim's non-starvation clause.  Against a
producer that broadcasts continuously (every `try_recv` inside `try_iter`
observes the queue non-empty, schedule `fun _ => true`), the drain never
ends — for every bound on the number of observed steps, `tryIterDrain`
reports the drain still consuming — so the worker-loop iteration never
reaches its `terminate_rx.try_recv()` termination check: the check is
starved, exactly what the claim (and the spec) rule out.  Conversely, the
moment a `try_recv` observes the queue empty the drain ends at once and
control falls through to the check, so the starvation is caused precisely by
continuous availability, not by the check waiting for an event. -/
theorem worker_termination_check_starved :
    (∀ fuel consumed : Nat, tryIterDrain (fun _ => true) fuel consumed = none)
    ∧ (∀ (avail : Nat → Bool) (consumed : Nat), avail consumed = false →
        ∀ fuel : Nat, tryIterDrain avail (fuel + 1) consumed = some consumed) := by
  constructor
  · intro fuel
    induction fuel with
    | zero => intro consumed; rfl
    | succ n ih =>
        intro consumed
        simp only [tryIterDrain, if_pos]
        exact ih (consumed + 1)
  · intro avail consumed h fuel
    simp [tryIterDrain, h]

/-- C10: `Subscription` is `Clone` and every clone shares the single
terminate sender bound to one worker: a clone is the same handle, disposing
or dropping any clone behaves exactly like disposing the original, and doing
so stops the running worker even while other copies of the handle remain
alive. -/
theorem subscription_clones_share_terminate (s : Subscription) :
    Subscription.clone s = s
    ∧ (Subscription.clone s).dispose = s.dispose
    ∧ (Subscription.clone s).drop = s.dispose
    ∧ (Subscription.clone (Subscription.mk WorkerState.running)).dispose.worker
        = WorkerState.stopped :=
  ⟨rfl, rfl, rfl, rfl⟩

/-! ## Witnesses: the hypotheses discharged at concrete inputs -/

/-- Witness for C1 at a concrete three-subscriber registry and event 5. -/
theorem broadcast_delivers_once_in_order_witness :
    WF ⟨[(0, true), (1, false), (2, true)], 3⟩ ∧
    ((⟨[(0, true), (1, false), (2, true)], 3⟩ : BusInner).broadcast (5 : Nat)).1 =
      ((BusInner.get_sorted_senders ⟨[(0, true), (1, false), (2, true)], 3⟩).filter
        (fun p => p.2)).map (fun p => (p.1, 5)) :=
  ⟨by decide,
    (broadcast_delivers_once_in_order ⟨[(0, true), (1, false), (2, true)], 3⟩ 5
      (by decide)).1⟩

/-- Witness for C2 at a concrete three-subscriber registry and event 5. -/
theorem broadcast_absorbs_send_failures_witness :
    WF ⟨[(0, true), (1, false), (2, true)], 3⟩ ∧
    ((⟨[(0, true), (1, false), (2, true)], 3⟩ : BusInner).broadcast (5 : Nat)).2 =
      ((BusInner.get_sorted_senders ⟨[(0, true), (1, false), (2, true)], 3⟩).filter
        (fun p => !p.2)).map Prod.fst :=
  ⟨by decide,
    (broadcast_absorbs_send_failures ⟨[(0, true), (1, false), (2, true)], 3⟩ 5
      (by decide)).1⟩

/-- Witness for C4 at a concrete two-subscriber registry. -/
theorem add_rx_registers_fresh_receiver_witness :
    Inv ⟨[(0, true), (1, false)], 2⟩ ∧
    ((⟨[(0, true), (1, false)], 2⟩ : BusInner).add_rx).2 = 2 :=
  ⟨by decide,
    (add_rx_registers_fresh_receiver ⟨[(0, true), (1, false)], 2⟩ (by decide)).1⟩

/-- Witness for C5 at a concrete two-subscriber registry. -/
theorem next_id_exceeds_all_keys_witness :
    Inv ⟨[(0, true), (1, false)], 2⟩ ∧
    Inv ((⟨[(0, true), (1, false)], 2⟩ : BusInner).add_rx).1 :=
  ⟨by decide,
    (next_id_exceeds_all_keys ⟨[(0, true), (1, false)], 2⟩ [0] (7 : Nat)
      (by decide)).2.1⟩

end DoubleDecker
